import Mathlib

/-!
Verification of the combinatorial triangulation engine of Regina
(`src/engine/generic/triangulation.h`, `src/engine/triangulation/dim3/subdivide.cpp`).

Two shallow embeddings are developed.

* An index model (`ReginaModel`): a triangulation is a length together with a
  facet-slot table; each facet slot of a top-dimensional simplex is either
  boundary (`none`) or holds the index of the adjacent simplex and the gluing
  permutation, exactly as in `TriangulationBase<dim>` for `dim = 3`.

* A heap model (`ReginaModel.Mem`): simplices are objects at addresses in a
  heap, each carrying a back-reference to its owning triangulation, and a
  triangulation is a list of addresses.  This captures the pointer-level
  behaviour of the copy constructor and of `swapContents`.

Permutations of the four vertex labels are `Equiv.Perm (Fin 4)`, mirroring
`Perm<4>`; the concrete permutations used by the surgery code are given by
their image tables, as in the `Perm<4>(a,b,c,d)` constructor.

The class `Simplex<3>` (`generic/simplex.h`) is not among the sources
examined; the effect of `join` / `unjoin` / `joinRaw` / `newSimplex` on the
facet slots is modelled from the specification (§4.1, §4.2) and from their
use sites in `triangulation.h` and `subdivide.cpp`.
-/

set_option maxRecDepth 4000

namespace ReginaModel

/-- Vertex-label permutations of a tetrahedron, as `Perm<4>`. -/
abbrev P4 := Equiv.Perm (Fin 4)

/-- `Perm<4>(3,0,1,2)`: the image table 3,0,1,2. -/
def p3012 : P4 := ⟨![3,0,1,2], ![1,2,3,0], by intro x; fin_cases x <;> rfl, by intro x; fin_cases x <;> rfl⟩

/-- `Perm<4>(1,2,3,0)`: the image table 1,2,3,0. -/
def p1230 : P4 := ⟨![1,2,3,0], ![3,0,1,2], by intro x; fin_cases x <;> rfl, by intro x; fin_cases x <;> rfl⟩

/-- `Perm<4>(3,2,0,1)`: the image table 3,2,0,1. -/
def p3201 : P4 := ⟨![3,2,0,1], ![2,3,1,0], by intro x; fin_cases x <;> rfl, by intro x; fin_cases x <;> rfl⟩

/-- `Perm<4>(2,3,1,0)`: the image table 2,3,1,0 (the inverse of `Perm<4>(3,2,0,1)`). -/
def p2310 : P4 := ⟨![2,3,1,0], ![3,2,0,1], by intro x; fin_cases x <;> rfl, by intro x; fin_cases x <;> rfl⟩

/-- `Perm<4>(0,1,3,2)`: the image table 0,1,3,2. -/
def p0132 : P4 := ⟨![0,1,3,2], ![0,1,3,2], by intro x; fin_cases x <;> rfl, by intro x; fin_cases x <;> rfl⟩

/-- `Perm<4>(3,0,2,1)`: the image table 3,0,2,1. -/
def p3021 : P4 := ⟨![3,0,2,1], ![1,3,2,0], by intro x; fin_cases x <;> rfl, by intro x; fin_cases x <;> rfl⟩

/-- A triangulation in the index model: `n` top-dimensional simplices with
densely assigned indices `0 .. n-1`; `adjFun i f` is the facet slot of facet
`f` of the simplex at index `i` (`Simplex<3>::adj_` and `gluing_`), and
`descFun i` its textual description. -/
structure Tri where
  n : Nat
  adjFun : Nat → Fin 4 → Option (Nat × P4)
  descFun : Nat → String

/-- The empty triangulation. -/
def emptyTri : Tri := ⟨0, fun _ _ => none, fun _ => ""⟩

/-- Read the facet slot of facet `f` of the simplex at index `i`
(`adjacentSimplex` / `adjacentGluing`); out-of-range indices read as boundary. -/
def getAdj (t : Tri) (i : Nat) (f : Fin 4) : Option (Nat × P4) :=
  if i < t.n then t.adjFun i f else none

/-- Overwrite one facet slot. -/
def setAdj (t : Tri) (i : Nat) (f : Fin 4) (v : Option (Nat × P4)) : Tri :=
  { t with adjFun := fun j g => if j = i ∧ g = f then v else t.adjFun j g }

/-- `newSimplex()` / `newSimplexRaw()`: append one simplex, all of whose
facets are boundary, with an empty description. -/
def addBlank (t : Tri) : Tri :=
  { n := t.n + 1
  , adjFun := fun j g => if j = t.n then none else t.adjFun j g
  , descFun := fun j => if j = t.n then "" else t.descFun j }

/-- `k` consecutive `newSimplex()` calls. -/
def addBlanks (k : Nat) (t : Tri) : Tri :=
  match k with
  | 0 => t
  | k + 1 => addBlank (addBlanks k t)

/-- Modelled from the spec: `Simplex<3>::join(myFacet, other, gluing)`
(§4.1; `generic/simplex.h` is not among the sources examined).  Preconditions:
both simplices belong to the triangulation, facet `f` of `a` is boundary,
facet `p f` of `b` is boundary, and for a self-gluing the two affected facets
are distinct.  Effect: `a`'s slot `f` becomes `(b, p)` and `b`'s slot `p f`
becomes `(a, p⁻¹)`.  A violated precondition is a failure (`none`). -/
def join (t : Tri) (a : Nat) (f : Fin 4) (b : Nat) (p : P4) : Option Tri :=
  if a < t.n ∧ b < t.n then
    if (getAdj t a f).isSome then none
    else if a = b ∧ p f = f then none
    else if (getAdj t b (p f)).isSome then none
    else some (setAdj (setAdj t a f (some (b, p))) b (p f) (some (a, p⁻¹)))
  else none

/-- Modelled from the spec: `Simplex<3>::unjoin(myFacet)` (§4.1).  Requires
the facet to be glued; clears both sides of the pairing. -/
def unjoin (t : Tri) (a : Nat) (f : Fin 4) : Option Tri :=
  match getAdj t a f with
  | none => none
  | some (b, p) => some (setAdj (setAdj t a f none) b (p f) none)

/-- Modelled from the spec: `joinRaw` (§4.2), identical slot effect to `join`
with no checking. -/
def joinRaw (t : Tri) (a : Nat) (f : Fin 4) (b : Nat) (p : P4) : Tri :=
  setAdj (setAdj t a f (some (b, p))) b (p f) (some (a, p⁻¹))

/-- The slot effect of clearing both sides of a gluing (`unjoin`). -/
def clearPair (t : Tri) (a : Nat) (f : Fin 4) (b : Nat) (g : Fin 4) : Tri :=
  setAdj (setAdj t a f none) b g none

/-- The per-slot condition of the global gluing invariant (§3): a glued facet
points inside the triangulation, the reciprocal slot holds the inverse
permutation, and no facet is glued to itself. -/
def slotOK (t : Tri) (i : Nat) (f : Fin 4) : Bool :=
  match getAdj t i f with
  | some (b, p) =>
      decide (b < t.n) && decide (getAdj t b (p f) = some (i, p⁻¹)) &&
        !(decide (b = i) && decide (p f = f))
  | none => true

/-- The global two-sided gluing invariant of a triangulation. -/
def wf (t : Tri) : Bool :=
  (List.range t.n).all fun i => (List.finRange 4).all fun f => slotOK t i f

/-- `TriangulationBase<dim>::isIdenticalTo` (`triangulation.h:1154-1178`),
in the index model: pointer comparison of `(*me)->adj_[f]` with
`simplices_[(*you)->adj_[f]->index()]` becomes equality of the stored
adjacent indices. -/
def isIdenticalTo (t u : Tri) : Bool :=
  decide (t.n = u.n) &&
  ((List.range t.n).all fun i => (List.finRange 4).all fun f =>
    match getAdj u i f with
    | some (b, p) =>
        match getAdj t i f with
        | some (c, q) => decide (c = b) && decide (q = p)
        | none => false
    | none =>
        match getAdj t i f with
        | some _ => false
        | none => true)

/-- Modelled from the spec: `insertTriangulation(source)` (§4.3 and the
generic excerpt at `triangulation.h:1239-1270`): append a structural copy of
`source`'s simplices, with every copied gluing re-indexed past the existing
`t.n` simplices. -/
def insertTriangulation (t x : Tri) : Tri :=
  { n := t.n + x.n
  , adjFun := fun i f =>
      if i < t.n then t.adjFun i f
      else
        match getAdj x (i - t.n) f with
        | some (b, p) => some (t.n + b, p)
        | none => none
  , descFun := fun i => if i < t.n then t.descFun i else x.descFun (i - t.n) }

/-- `Triangulation<3>::puncture` at a given simplex index
(`subdivide.cpp:176-220`).  The six prism tetrahedra are created in the order
`prism[0][0], prism[1][0], prism[0][1], prism[1][1], prism[0][2], prism[1][2]`,
so `prism[i][j]` receives index `t.n + 2*j + i`. -/
def punctureAt (t : Tri) (tet : Nat) : Option Tri :=
  let n := t.n
  let t6 := addBlanks 6 t
  (join t6 n 0 (n+2) p3012).bind fun s1 =>
  (join s1 (n+2) 0 (n+4) p3012).bind fun s2 =>
  (join s2 (n+1) 1 (n+3) p3012).bind fun s3 =>
  (join s3 (n+3) 1 (n+5) p3201).bind fun s4 =>
  (join s4 n 1 (n+1) p1230).bind fun s5 =>
  (join s5 n 2 (n+1) p1230).bind fun s6 =>
  (join s6 (n+2) 1 (n+3) p1230).bind fun s7 =>
  (join s7 (n+2) 2 (n+3) p1230).bind fun s8 =>
  (join s8 (n+4) 1 (n+5) p0132).bind fun s9 =>
  (join s9 (n+4) 2 (n+5) p0132).bind fun s10 =>
  (match getAdj s10 tet 0 with
   | some (a, g) => (unjoin s10 tet 0).bind fun s11 => join s11 (n+1) 0 a g
   | none => some s10).bind fun s12 =>
  join s12 tet 0 n p3012

/-- The slot-level outcome of a successful `punctureAt t tet`: the same
sequence of gluing updates expressed through the unchecked slot operations.
The perm recorded at facet 0 of `tet` is read from the original
triangulation, which `punctureAt` leaves untouched up to the unjoin. -/
def punctureRaw (t : Tri) (tet : Nat) : Tri :=
  let n := t.n
  let t6 := addBlanks 6 t
  let s1 := joinRaw t6 n 0 (n+2) p3012
  let s2 := joinRaw s1 (n+2) 0 (n+4) p3012
  let s3 := joinRaw s2 (n+1) 1 (n+3) p3012
  let s4 := joinRaw s3 (n+3) 1 (n+5) p3201
  let s5 := joinRaw s4 n 1 (n+1) p1230
  let s6 := joinRaw s5 n 2 (n+1) p1230
  let s7 := joinRaw s6 (n+2) 1 (n+3) p1230
  let s8 := joinRaw s7 (n+2) 2 (n+3) p1230
  let s9 := joinRaw s8 (n+4) 1 (n+5) p0132
  let s10 := joinRaw s9 (n+4) 2 (n+5) p0132
  let s12 :=
    match getAdj t tet 0 with
    | some (a, g) => joinRaw (clearPair s10 tet 0 a (g 0)) (n+1) 0 a g
    | none => s10
  joinRaw s12 tet 0 n p3012

/-- `Triangulation<3>::puncture(Tetrahedron<3>* tet)` with its default
argument: a null `tet` means the first simplex, and an empty triangulation is
left untouched. -/
def puncture (t : Tri) (tet : Option Nat) : Option Tri :=
  match tet with
  | none => if t.n = 0 then some t else punctureAt t 0
  | some i => punctureAt t i

/-- Number of inversions of a vertex-label permutation. -/
def inversions (p : P4) : Nat :=
  (((List.finRange 4).product (List.finRange 4)).filter
    (fun x => decide (x.1 < x.2 ∧ p x.2 < p x.1))).length

/-- Modelled from the spec: `Perm<4>::sign()` (`maths/nperm.h` is not among
the sources examined): `+1` for an even permutation, `-1` for an odd one. -/
def permSign (p : P4) : Int :=
  if inversions p % 2 = 0 then 1 else -1

/-- Modelled from the spec: the `vertices()` permutation of the first
embedding of triangle 0 of a tetrahedron (skeleton code is not among the
sources examined): it lists the vertices `1,2,3` of facet 0 in increasing
order, with the facet number in position 3. -/
def ordering0 : P4 := p1230

/-- `Triangulation<3>::connectedSumWith` (`subdivide.cpp:222-290`).  The
skeleton query `simplices_[n]->triangle(0)` is resolved through the facet-0
slot of the simplex at index `n`: a boundary slot is the degree-1 case, a
glued slot the degree-2 case, whose front embedding is at the simplex `n`
itself (the inserted copy is scanned from index `n` upward) with vertices
`ordering0`, and whose back embedding is at the recorded neighbour with
vertices `g * ordering0`. -/
def connectedSumWith (t other : Tri) : Option Tri :=
  if other.n = 0 then some t
  else if t.n = 0 then some (insertTriangulation t other)
  else
    let n := t.n
    let t1 := insertTriangulation t other
    (punctureAt t1 0).bind fun t2 =>
    let b0 := t2.n - 2
    let b1 := t2.n - 1
    match getAdj t2 n 0 with
    | some (a, g) =>
        let v1 := ordering0
        let v2 := g * v1
        (unjoin t2 n (v1 3)).bind fun t3 =>
        if permSign v1 = 1 then
          (join t3 b0 0 n (v1 * p3012)).bind fun t4 =>
          join t4 b1 0 a (v2 * p3021)
        else
          (join t3 b0 0 n (v1 * p3021)).bind fun t4 =>
          join t4 b1 0 a (v2 * p3012)
    | none =>
        let v1 := ordering0
        if permSign v1 = 1 then
          join t2 b0 0 n (v1 * p3012)
        else
          join t2 b0 0 n (v1 * p3021)

/-- The index tables `tip`, `interior`, `edge`, `vertex` built by the
`nDiv` loop of `idealToFinite` (`subdivide.cpp:62-77`). -/
structure SubdivIdx where
  nDiv : Nat
  tip : Fin 4 → Nat
  interior : Fin 4 → Nat
  edge : Fin 4 → Fin 4 → Nat
  vertex : Fin 4 → Fin 4 → Nat

/-- One outer iteration (`j`) of the `nDiv` loop. -/
def subdivStep (s : SubdivIdx) (j : Fin 4) : SubdivIdx :=
  let s1 : SubdivIdx := { s with tip := Function.update s.tip j s.nDiv, nDiv := s.nDiv + 1 }
  let s2 : SubdivIdx :=
    { s1 with interior := Function.update s1.interior j s1.nDiv, nDiv := s1.nDiv + 1 }
  (List.finRange 4).foldl (fun u k =>
    if j ≠ k then
      let uE : SubdivIdx :=
        { u with edge := Function.update u.edge j (Function.update (u.edge j) k u.nDiv)
               , nDiv := u.nDiv + 1 }
      { uE with vertex := Function.update uE.vertex j (Function.update (uE.vertex j) k uE.nDiv)
              , nDiv := uE.nDiv + 1 }
    else u) s2

/-- The completed index tables (`subdivide.cpp:67-77`). -/
def subdivIdx : SubdivIdx :=
  (List.finRange 4).foldl subdivStep ⟨0, fun _ => 0, fun _ => 0, fun _ _ => 0, fun _ _ => 0⟩

/-- The gluings inside the 32 children of one original tetrahedron
(`subdivide.cpp:81-109`). -/
def internalGlueTet (S : SubdivIdx) (i : Nat) (t : Tri) : Tri :=
  let t := (List.finRange 4).foldl
    (fun t j => joinRaw t (S.tip j + i * S.nDiv) j (S.interior j + i * S.nDiv) 1) t
  let t := (List.finRange 4).foldl (fun t j => (List.finRange 4).foldl
    (fun t k => if j ≠ k then
        joinRaw t (S.interior j + i * S.nDiv) k (S.vertex k j + i * S.nDiv) 1
      else t) t) t
  (List.finRange 4).foldl (fun t j => (List.finRange 4).foldl
    (fun t k => if j ≠ k then
        let t := if j < k then
            joinRaw t (S.edge j k + i * S.nDiv) j (S.edge k j + i * S.nDiv) (Equiv.swap j k)
          else t
        (List.finRange 4).foldl (fun t l => if l ≠ j ∧ l ≠ k then
            joinRaw t (S.edge j k + i * S.nDiv) l (S.vertex j l + i * S.nDiv) (Equiv.swap k l)
          else t) t
      else t) t) t

/-- The gluings between children of adjacent original tetrahedra
(`subdivide.cpp:112-142`), each adjacent pair processed from one side only. -/
def crossGlueTet (S : SubdivIdx) (orig : Tri) (i : Nat) (t : Tri) : Tri :=
  (List.finRange 4).foldl (fun t j =>
    match getAdj orig i j with
    | some (oppTet, p) =>
        if oppTet < i ∨ (oppTet = i ∧ p j < j) then t
        else
          let t := (List.finRange 4).foldl (fun t k => if j ≠ k then
              joinRaw t (S.tip k + i * S.nDiv) j (S.tip (p k) + oppTet * S.nDiv) p
            else t) t
          let t := (List.finRange 4).foldl (fun t k => if j ≠ k then
              joinRaw t (S.edge j k + i * S.nDiv) k (S.edge (p j) (p k) + oppTet * S.nDiv) p
            else t) t
          (List.finRange 4).foldl (fun t k => if j ≠ k then
              joinRaw t (S.vertex j k + i * S.nDiv) k (S.vertex (p j) (p k) + oppTet * S.nDiv) p
            else t) t
    | none => t) t

/-- The staging triangulation of `idealToFinite` as it stands after all raw
gluings, before any ideal-vertex deletion (`subdivide.cpp:56-144`). -/
def buildStaging (t : Tri) : Tri :=
  let S := subdivIdx
  let staging := addBlanks (32 * t.n) emptyTri
  let staging := (List.range t.n).foldl (fun s i => internalGlueTet S i s) staging
  (List.range t.n).foldl (fun s i => crossGlueTet S t i s) staging

/-- The observable outcome of `idealToFinite`: a returned Boolean together
with the final triangulation, or a thrown `LockViolation` (which leaves the
triangulation as it was at the throw). -/
inductive I2FResult where
  | ret (changed : Bool) (t : Tri)
  | throwLV (t : Tri)

/-- `Triangulation<3>::idealToFinite` (`subdivide.cpp:40-174`).  Modelled
from the spec: the skeleton-derived predicates `isValid()`, `isIdeal()` and
the lock query `hasLocks()` are not among the sources examined and enter as
Boolean inputs, and the deletion of the children meeting an ideal or invalid
vertex (`subdivide.cpp:146-172`) enters as the oracle `deleteIdeal`.  The
check order is that of the source: the valid-and-not-ideal early return, then
the emptiness check, then the lock check, then the staged subdivision. -/
def idealToFinite (t : Tri) (valid ideal hasLocks : Bool)
    (deleteIdeal : Tri → Tri) : I2FResult :=
  if valid && !ideal then .ret false t
  else if t.n = 0 then .ret false t
  else if hasLocks then .throwLV t
  else .ret true (deleteIdeal (buildStaging t))

/-- The identity vertex-label permutation `Perm<4>()`. -/
def pid : P4 := 1

/-- A one-simplex triangulation with all facets boundary. -/
def oneBlank : Tri := addBlank emptyTri

/-- A two-simplex triangulation with all facets boundary. -/
def twoBlank : Tri := addBlank (addBlank emptyTri)

/-- The result of gluing facet 0 of simplex 0 of `twoBlank` to simplex 1 via
the identity permutation. -/
def joinWitT : Tri :=
  setAdj (setAdj twoBlank 0 0 (some (1, pid))) 1 (pid 0) (some (0, pid⁻¹))

namespace Mem

/-- A simplex object in the heap model: description, facet slots whose
adjacency component is a heap address, and the back-reference `tri_` to the
owning triangulation. -/
structure SObj where
  descr : String
  adj : Fin 4 → Option (Nat × P4)
  tri : Nat

instance : Inhabited SObj := ⟨⟨"", fun _ => none, 0⟩⟩

/-- The heap model world: a heap of simplex objects addressed by position,
and for every triangulation identifier its `simplices_` vector of addresses. -/
structure World where
  heap : List SObj
  tris : Nat → List Nat

/-- Dereference a heap address. -/
def obj (w : World) (a : Nat) : SObj := w.heap.getD a default

/-- The copy constructor `TriangulationBase<dim>::TriangulationBase(const
TriangulationBase&)` (`triangulation.h:964-986`), creating triangulation
`dst` as a copy of `src`: first push a new simplex for each of `src`'s with
the copied description, then fill each facet slot, resolving
`simplices_[(*you)->adj_[f]->index()]` to the new simplex at the same index. -/
def copyTri (w : World) (src dst : Nat) : World :=
  let srcL := w.tris src
  let base := w.heap.length
  let newObjs := (List.range srcL.length).map (fun i =>
    { descr := (obj w (srcL.getD i 0)).descr
    , adj := fun f =>
        match (obj w (srcL.getD i 0)).adj f with
        | some (a2, p) => some (base + srcL.indexOf a2, p)
        | none => none
    , tri := dst : SObj })
  { heap := w.heap ++ newObjs
  , tris := fun j => if j = dst then (List.range srcL.length).map (fun i => base + i)
      else w.tris j }

/-- `isIdenticalTo` (`triangulation.h:1154-1178`) in the heap model: the
pointer comparison of `(*me)->adj_[f]` with
`simplices_[(*you)->adj_[f]->index()]` is address equality against this
triangulation's vector at the index of `you`'s adjacent simplex in `other`'s
vector. -/
def isIdenticalToW (w : World) (tA tB : Nat) : Bool :=
  let A := w.tris tA
  let B := w.tris tB
  decide (A.length = B.length) &&
  ((List.range A.length).all fun i => (List.finRange 4).all fun f =>
    let me := obj w (A.getD i 0)
    let you := obj w (B.getD i 0)
    match you.adj f with
    | some (aAddr, p) =>
        match me.adj f with
        | some (mAddr, q) => decide (mAddr = A.getD (B.indexOf aAddr) 0) && decide (q = p)
        | none => false
    | none =>
        match me.adj f with
        | some _ => false
        | none => true)

/-- The `tri_` reassignment loop of `swapContents`: give every simplex whose
address is listed in `addrs` the owner `t`. -/
def setOwnerAll (h : List SObj) (addrs : List Nat) (t : Nat) : List SObj :=
  addrs.foldl (fun acc a => acc.set a { acc.getD a default with tri := t }) h

/-- `TriangulationBase<dim>::swapContents` (`triangulation.h:1101-1117`):
swap the two `simplices_` vectors, then walk each vector reassigning the
`tri_` back-reference of its members.  No simplex object is moved, copied or
re-slotted. -/
def swapContents (w : World) (x y : Nat) : World :=
  let lx := w.tris x
  let ly := w.tris y
  { heap := setOwnerAll (setOwnerAll w.heap ly x) lx y
  , tris := fun j => if j = x then ly else if j = y then lx else w.tris j }

/-- A world holding one triangulation (identifier 0) with two simplex
objects at addresses 0 and 1, glued to each other across facet 0 by the
identity permutation. -/
def wPair : World :=
  { heap := [⟨"", fun f => if f = 0 then some (1, pid) else none, 0⟩,
             ⟨"", fun f => if f = 0 then some (0, pid) else none, 0⟩]
  , tris := fun j => if j = 0 then [0, 1] else [] }

/-- A world holding two one-simplex triangulations (identifiers 0 and 1). -/
def wTwoTris : World :=
  { heap := [⟨"", fun _ => none, 0⟩, ⟨"", fun _ => none, 1⟩]
  , tris := fun j => if j = 0 then [0] else if j = 1 then [1] else [] }

end Mem

/-! Structural lemmas for the index model. -/

theorem n_setAdj (t : Tri) (i : Nat) (f : Fin 4) (v : Option (Nat × P4)) :
    (setAdj t i f v).n = t.n := rfl

theorem n_addBlank (t : Tri) : (addBlank t).n = t.n + 1 := rfl

theorem n_addBlanks (k : Nat) (t : Tri) : (addBlanks k t).n = t.n + k := by
  induction k with
  | zero => rfl
  | succ k ih =>
      show (addBlanks k t).n + 1 = t.n + (k + 1)
      rw [ih]
      omega

theorem getAdj_of_le (t : Tri) (i : Nat) (f : Fin 4) (h : t.n ≤ i) :
    getAdj t i f = none := by
  unfold getAdj
  rw [if_neg (by omega)]

theorem getAdj_setAdj_self (t : Tri) (i : Nat) (f : Fin 4) (v : Option (Nat × P4))
    (h : i < t.n) : getAdj (setAdj t i f v) i f = v := by
  unfold getAdj setAdj
  simp [h]

theorem getAdj_setAdj_of_ne_idx (t : Tri) (i : Nat) (f : Fin 4) (v : Option (Nat × P4))
    (j : Nat) (g : Fin 4) (h : j ≠ i) : getAdj (setAdj t i f v) j g = getAdj t j g := by
  unfold getAdj setAdj
  simp [h]

theorem getAdj_setAdj_of_ne_facet (t : Tri) (i : Nat) (f : Fin 4) (v : Option (Nat × P4))
    (j : Nat) (g : Fin 4) (h : g ≠ f) : getAdj (setAdj t i f v) j g = getAdj t j g := by
  unfold getAdj setAdj
  simp [h]

theorem getAdj_addBlank (t : Tri) (i : Nat) (f : Fin 4) :
    getAdj (addBlank t) i f = if i < t.n then getAdj t i f else none := by
  show (if i < t.n + 1 then (if i = t.n then none else t.adjFun i f) else none) = _
  by_cases h : i < t.n
  · rw [if_pos (show i < t.n + 1 by omega), if_neg (show ¬ i = t.n by omega), if_pos h]
    unfold getAdj
    rw [if_pos h]
  · rw [if_neg h]
    by_cases h2 : i < t.n + 1
    · rw [if_pos h2, if_pos (show i = t.n by omega)]
    · rw [if_neg h2]

theorem getAdj_addBlanks (k : Nat) (t : Tri) (i : Nat) (f : Fin 4) :
    getAdj (addBlanks k t) i f = if i < t.n then getAdj t i f else none := by
  induction k with
  | zero =>
      show getAdj t i f = _
      by_cases h : i < t.n
      · rw [if_pos h]
      · rw [if_neg h, getAdj_of_le t i f (by omega)]
  | succ k ih =>
      show getAdj (addBlank (addBlanks k t)) i f = _
      rw [getAdj_addBlank, ih, n_addBlanks]
      split_ifs <;> first | rfl | omega

theorem join_eq_some (t : Tri) (a : Nat) (f : Fin 4) (b : Nat) (p : P4)
    (ha : a < t.n) (hb : b < t.n) (h1 : getAdj t a f = none)
    (h2 : getAdj t b (p f) = none) (h3 : ¬(a = b ∧ p f = f)) :
    join t a f b p = some (joinRaw t a f b p) := by
  unfold join
  rw [if_pos ⟨ha, hb⟩, h1]
  simp only [Option.isSome_none, Bool.false_eq_true, if_false]
  rw [if_neg h3, h2]
  simp only [Option.isSome_none, Bool.false_eq_true, if_false]
  rfl

theorem unjoin_eq_some (t : Tri) (a : Nat) (f : Fin 4) (b : Nat) (p : P4)
    (h : getAdj t a f = some (b, p)) :
    unjoin t a f = some (clearPair t a f b (p f)) := by
  unfold unjoin
  rw [h]
  rfl

@[simp] theorem p3012_a0 : p3012 0 = 3 := rfl
@[simp] theorem p3012_a1 : p3012 1 = 0 := rfl
@[simp] theorem p3012_a2 : p3012 2 = 1 := rfl
@[simp] theorem p3012_a3 : p3012 3 = 2 := rfl
@[simp] theorem p1230_a0 : p1230 0 = 1 := rfl
@[simp] theorem p1230_a1 : p1230 1 = 2 := rfl
@[simp] theorem p1230_a2 : p1230 2 = 3 := rfl
@[simp] theorem p1230_a3 : p1230 3 = 0 := rfl
@[simp] theorem p3201_a0 : p3201 0 = 3 := rfl
@[simp] theorem p3201_a1 : p3201 1 = 2 := rfl
@[simp] theorem p3201_a2 : p3201 2 = 0 := rfl
@[simp] theorem p3201_a3 : p3201 3 = 1 := rfl
@[simp] theorem p0132_a0 : p0132 0 = 0 := rfl
@[simp] theorem p0132_a1 : p0132 1 = 1 := rfl
@[simp] theorem p0132_a2 : p0132 2 = 3 := rfl
@[simp] theorem p0132_a3 : p0132 3 = 2 := rfl
@[simp] theorem p3021_a0 : p3021 0 = 3 := rfl
@[simp] theorem p3021_a1 : p3021 1 = 0 := rfl
@[simp] theorem p3021_a2 : p3021 2 = 2 := rfl
@[simp] theorem p3021_a3 : p3021 3 = 1 := rfl
@[simp] theorem ordering0_eq : ordering0 = p1230 := rfl

theorem n_clearPair (t : Tri) (a : Nat) (f : Fin 4) (b : Nat) (g : Fin 4) :
    (clearPair t a f b g).n = t.n := rfl

theorem getAdj_joinRaw (t : Tri) (a : Nat) (f : Fin 4) (b : Nat) (p : P4)
    (j : Nat) (g : Fin 4) :
    getAdj (joinRaw t a f b p) j g =
      if j = b ∧ g = p f then (if j < t.n then some (a, p⁻¹) else none)
      else if j = a ∧ g = f then (if j < t.n then some (b, p) else none)
      else getAdj t j g := by
  unfold joinRaw
  by_cases h1 : j = b ∧ g = p f
  · rw [if_pos h1]
    obtain ⟨rfl, rfl⟩ := h1
    by_cases h2 : j < t.n
    · rw [if_pos h2]
      exact getAdj_setAdj_self _ _ _ _ h2
    · rw [if_neg h2]
      exact getAdj_of_le _ _ _ (le_of_not_lt h2)
  · rw [if_neg h1]
    have step : getAdj (setAdj (setAdj t a f (some (b, p))) b (p f) (some (a, p⁻¹))) j g =
        getAdj (setAdj t a f (some (b, p))) j g := by
      rcases not_and_or.mp h1 with h | h
      · exact getAdj_setAdj_of_ne_idx _ _ _ _ _ _ h
      · exact getAdj_setAdj_of_ne_facet _ _ _ _ _ _ h
    rw [step]
    by_cases h2 : j = a ∧ g = f
    · obtain ⟨rfl, rfl⟩ := h2
      rw [if_pos ⟨rfl, rfl⟩]
      by_cases h3 : j < t.n
      · rw [if_pos h3]
        exact getAdj_setAdj_self _ _ _ _ h3
      · rw [if_neg h3]
        exact getAdj_of_le _ _ _ (le_of_not_lt h3)
    · rw [if_neg h2]
      rcases not_and_or.mp h2 with h | h
      · exact getAdj_setAdj_of_ne_idx _ _ _ _ _ _ h
      · exact getAdj_setAdj_of_ne_facet _ _ _ _ _ _ h

theorem getAdj_clearPair (t : Tri) (a : Nat) (f : Fin 4) (b : Nat) (g : Fin 4)
    (j : Nat) (h : Fin 4) :
    getAdj (clearPair t a f b g) j h =
      if j = b ∧ h = g then none
      else if j = a ∧ h = f then none
      else getAdj t j h := by
  unfold clearPair
  by_cases h1 : j = b ∧ h = g
  · rw [if_pos h1]
    obtain ⟨rfl, rfl⟩ := h1
    by_cases h2 : j < t.n
    · exact getAdj_setAdj_self _ _ _ _ h2
    · exact getAdj_of_le _ _ _ (le_of_not_lt h2)
  · rw [if_neg h1]
    have step : getAdj (setAdj (setAdj t a f none) b g none) j h =
        getAdj (setAdj t a f none) j h := by
      rcases not_and_or.mp h1 with hx | hx
      · exact getAdj_setAdj_of_ne_idx _ _ _ _ _ _ hx
      · exact getAdj_setAdj_of_ne_facet _ _ _ _ _ _ hx
    rw [step]
    by_cases h2 : j = a ∧ h = f
    · obtain ⟨rfl, rfl⟩ := h2
      rw [if_pos ⟨rfl, rfl⟩]
      by_cases h3 : j < t.n
      · exact getAdj_setAdj_self _ _ _ _ h3
      · exact getAdj_of_le _ _ _ (le_of_not_lt h3)
    · rw [if_neg h2]
      rcases not_and_or.mp h2 with hx | hx
      · exact getAdj_setAdj_of_ne_idx _ _ _ _ _ _ hx
      · exact getAdj_setAdj_of_ne_facet _ _ _ _ _ _ hx

theorem wf_slot (t : Tri) (i : Nat) (f : Fin 4) (b : Nat) (p : P4)
    (h : wf t = true) (hi : i < t.n) (hx : getAdj t i f = some (b, p)) :
    b < t.n ∧ getAdj t b (p f) = some (i, p⁻¹) ∧ ¬(b = i ∧ p f = f) := by
  unfold wf at h
  rw [List.all_eq_true] at h
  have h1 := h i (List.mem_range.mpr hi)
  rw [List.all_eq_true] at h1
  have h2 := h1 f (List.mem_finRange f)
  unfold slotOK at h2
  rw [hx] at h2
  simp only [Bool.and_eq_true, decide_eq_true_eq, Bool.not_eq_true',
    Bool.and_eq_false_iff, decide_eq_false_iff_not] at h2
  obtain ⟨⟨hb, hrec⟩, hor⟩ := h2
  refine ⟨hb, hrec, fun hcon => ?_⟩
  rcases hor with hor | hor
  · exact hor hcon.1
  · exact hor hcon.2

theorem isIdenticalTo_refl (t : Tri) : isIdenticalTo t t = true := by
  unfold isIdenticalTo
  simp only [Bool.and_eq_true, decide_eq_true_eq, List.all_eq_true]
  refine ⟨trivial, fun i _ => fun f _ => ?_⟩
  rcases h : getAdj t i f with _ | ⟨b, q⟩ <;> simp [h]

/-! Claim C1. -/

/-- Claim C1: if `A.join(f, B, p)` succeeds then afterwards `A`'s slot `f`
holds `(B, p)`, `B`'s slot at facet `g = p f` holds exactly `(A, p⁻¹)`, and
`p⁻¹ g = f`: every successful join establishes the symmetric two-sided
gluing invariant. -/
theorem C1_join_two_sided (t : Tri) (a : Nat) (f : Fin 4) (b : Nat) (p : P4)
    (t' : Tri) (h : join t a f b p = some t') :
    getAdj t' a f = some (b, p) ∧
    getAdj t' b (p f) = some (a, p⁻¹) ∧ p⁻¹ (p f) = f := by
  unfold join at h
  by_cases h0 : a < t.n ∧ b < t.n
  · rw [if_pos h0] at h
    by_cases h1 : (getAdj t a f).isSome
    · rw [if_pos h1] at h; cases h
    · rw [if_neg h1] at h
      by_cases h2 : a = b ∧ p f = f
      · rw [if_pos h2] at h; cases h
      · rw [if_neg h2] at h
        by_cases h3 : (getAdj t b (p f)).isSome
        · rw [if_pos h3] at h; cases h
        · rw [if_neg h3] at h
          injection h with h
          subst h
          refine ⟨?_, ?_, Equiv.Perm.inv_apply_self p f⟩
          · have hne : ¬(a = b) ∨ ¬(p f = f) := not_and_or.mp h2
            rcases hne with hne | hne
            · rw [getAdj_setAdj_of_ne_idx _ _ _ _ _ _ hne,
                getAdj_setAdj_self _ _ _ _ h0.1]
            · rw [getAdj_setAdj_of_ne_facet _ _ _ _ _ _ (fun hh => hne hh.symm),
                getAdj_setAdj_self _ _ _ _ h0.1]
          · rw [getAdj_setAdj_self]
            rw [n_setAdj]
            exact h0.2
  · rw [if_neg h0] at h; cases h

/-- Witness for C1: gluing facet 0 of simplex 0 of a two-simplex
triangulation to simplex 1 by the identity permutation. -/
theorem C1_witness :
    getAdj joinWitT 0 0 = some (1, pid) ∧
    getAdj joinWitT 1 (pid 0) = some (0, pid⁻¹) ∧ pid⁻¹ (pid 0) = 0 :=
  C1_join_two_sided twoBlank 0 0 1 pid joinWitT rfl

/-! Claim C3. -/

/-- Claim C3: on a triangulation that is empty, or whose vertices are all
finite and valid (modelled from the spec as `isValid() && ! isIdeal()`),
`idealToFinite()` returns `false` and leaves the triangulation unchanged:
the size is the same and the result is still `isIdenticalTo` the
triangulation as it was before the call. -/
theorem C3_idealToFinite_noop (t : Tri) (valid ideal hasLocks : Bool)
    (deleteIdeal : Tri → Tri)
    (h : (valid = true ∧ ideal = false) ∨ t.n = 0) :
    ∃ u, idealToFinite t valid ideal hasLocks deleteIdeal = .ret false u ∧
      u.n = t.n ∧ isIdenticalTo u t = true := by
  refine ⟨t, ?_, rfl, isIdenticalTo_refl t⟩
  unfold idealToFinite
  rcases h with ⟨hv, hi⟩ | h0
  · subst hv; subst hi; simp
  · by_cases hvi : (valid && !ideal) = true
    · simp [hvi]
    · simp [hvi, h0]

/-- Witness for C3: a single unglued tetrahedron with finite valid vertices,
and separately the empty triangulation. -/
theorem C3_witness :
    ∃ u, idealToFinite oneBlank true false false (fun s => s) = .ret false u ∧
      u.n = oneBlank.n ∧ isIdenticalTo u oneBlank = true :=
  C3_idealToFinite_noop oneBlank true false false (fun s => s) (Or.inl ⟨rfl, rfl⟩)

/-! Claim C4. -/

/-- Claim C4 counterexample: a non-empty triangulation carrying a lock whose
vertices are all finite and valid (`isValid() && ! isIdeal()`) makes
`idealToFinite()` return `false` at the early exit, before the lock check is
reached: it does not throw `LockViolation`. -/
theorem C4_counterexample :
    idealToFinite oneBlank true false true (fun s => s) = .ret false oneBlank ∧
    idealToFinite oneBlank true false true (fun s => s) ≠ .throwLV oneBlank := by
  constructor
  · rfl
  · simp [idealToFinite]

/-- Claim C4 (amended): on a non-empty triangulation that is ideal or
invalid (so that subdivision would proceed), the presence of any simplex or
facet lock makes `idealToFinite()` throw `LockViolation`, and the
triangulation is not modified. -/
theorem C4_lock_violation (t : Tri) (valid ideal : Bool) (deleteIdeal : Tri → Tri)
    (hn : t.n ≠ 0) (hvi : ¬(valid = true ∧ ideal = false)) :
    idealToFinite t valid ideal true deleteIdeal = .throwLV t := by
  unfold idealToFinite
  have hb : (valid && !ideal) = false := by
    cases valid <;> cases ideal <;> simp_all
  simp [hb, hn]

/-- Witness for C4 (amended): a one-tetrahedron ideal triangulation with a
lock. -/
theorem C4_witness :
    idealToFinite oneBlank false true true (fun s => s) = .throwLV oneBlank :=
  C4_lock_violation oneBlank false true (fun s => s) (by decide) (by simp)

theorem n_joinRaw (t : Tri) (a : Nat) (f : Fin 4) (b : Nat) (p : P4) :
    (joinRaw t a f b p).n = t.n := rfl

theorem getAdj_setAdj (t : Tri) (i : Nat) (f : Fin 4) (v : Option (Nat × P4))
    (j : Nat) (g : Fin 4) :
    getAdj (setAdj t i f v) j g =
      if j = i ∧ g = f then (if j < t.n then v else none) else getAdj t j g := by
  by_cases h1 : j = i ∧ g = f
  · rw [if_pos h1]
    obtain ⟨rfl, rfl⟩ := h1
    by_cases h2 : j < t.n
    · rw [if_pos h2]
      exact getAdj_setAdj_self _ _ _ _ h2
    · rw [if_neg h2]
      exact getAdj_of_le _ _ _ (le_of_not_lt h2)
  · rw [if_neg h1]
    rcases not_and_or.mp h1 with h | h
    · exact getAdj_setAdj_of_ne_idx _ _ _ _ _ _ h
    · exact getAdj_setAdj_of_ne_facet _ _ _ _ _ _ h

theorem punctureAt_eq (t : Tri) (tet : Nat) (htet : tet < t.n)
    (hadj : ∀ x : Nat × P4, getAdj t tet 0 = some x →
      x.1 < t.n ∧ ¬(x.1 = tet ∧ x.2 0 = 0)) :
    punctureAt t tet = some (punctureRaw t tet) := by
  have hf1 : ∀ k : Nat, ¬(tet = t.n + k) := fun k => by omega
  have hf2 : ∀ k : Nat, ¬(t.n + k = tet) := fun k => by omega
  have hf3 : ¬(tet = t.n) := by omega
  have hf4 : ¬(t.n = tet) := by omega
  have hf6 : tet < t.n + 6 := by omega
  rcases hA : getAdj t tet 0 with _ | ⟨a, g⟩
  · simp only [punctureAt, punctureRaw]
    simp [join_eq_some, unjoin_eq_some, getAdj_joinRaw, getAdj_clearPair, getAdj_addBlanks,
      n_joinRaw, n_clearPair, n_addBlanks, hA, htet, hf1, hf2, hf3, hf4, hf6,
      lt_add_iff_pos_right, self_eq_add_right, add_right_eq_self]
  · obtain ⟨ha, hane⟩ := hadj (a, g) hA
    have ga1 : ∀ k : Nat, ¬(a = t.n + k) := fun k => by omega
    have ga2 : ∀ k : Nat, ¬(t.n + k = a) := fun k => by omega
    have ga3 : ¬(a = t.n) := by omega
    have ga4 : ¬(t.n = a) := by omega
    have ga6 : a < t.n + 6 := by omega
    have hb1 : ¬(a = tet ∧ g 0 = 0) := hane
    have hb2 : ¬(tet = a ∧ (0 : Fin 4) = g 0) := fun hc => hane ⟨hc.1.symm, hc.2.symm⟩
    have hb3 : ¬(tet = a ∧ g 0 = 0) := fun hc => hane ⟨hc.1.symm, hc.2⟩
    have hb4 : ¬(a = tet ∧ (0 : Fin 4) = g 0) := fun hc => hane ⟨hc.1, hc.2.symm⟩
    simp only [punctureAt, punctureRaw]
    simp [join_eq_some, unjoin, clearPair, getAdj_joinRaw, getAdj_setAdj, getAdj_addBlanks,
      n_joinRaw, n_setAdj, n_addBlanks, hA, htet, hf1, hf2, hf3, hf4, hf6,
      ga1, ga2, ga3, ga4, ga6, ha, hb1, hb2, hb3, hb4,
      lt_add_iff_pos_right, self_eq_add_right, add_right_eq_self]

theorem n_punctureRaw (t : Tri) (tet : Nat) : (punctureRaw t tet).n = t.n + 6 := by
  rcases hA : getAdj t tet 0 with _ | ⟨a, g⟩ <;>
    simp [punctureRaw, hA, n_joinRaw, n_clearPair, n_addBlanks]

theorem punctureRaw_frame (t : Tri) (tet : Nat) (i : Nat) (f : Fin 4)
    (hi : i < t.n) (h1 : ¬(i = tet ∧ f = 0))
    (h2 : ∀ x : Nat × P4, getAdj t tet 0 = some x → ¬(i = x.1 ∧ f = x.2 0)) :
    getAdj (punctureRaw t tet) i f = getAdj t i f := by
  have hi1 : ∀ k : Nat, ¬(i = t.n + k) := fun k => by omega
  have hi3 : ¬(i = t.n) := by omega
  rcases hA : getAdj t tet 0 with _ | ⟨a, g⟩
  · simp [punctureRaw, hA, getAdj_joinRaw, getAdj_addBlanks, n_joinRaw, n_addBlanks,
      hi, hi1, hi3, h1]
  · have hp := h2 (a, g) hA
    simp [punctureRaw, hA, clearPair, getAdj_joinRaw, getAdj_setAdj, getAdj_addBlanks,
      n_joinRaw, n_setAdj, n_addBlanks, hi, hi1, hi3, h1, hp]

theorem punctureRaw_bdry (t : Tri) (tet : Nat) (htet : tet < t.n)
    (hadj : ∀ x : Nat × P4, getAdj t tet 0 = some x →
      x.1 < t.n ∧ ¬(x.1 = tet ∧ x.2 0 = 0)) :
    getAdj (punctureRaw t tet) (t.n + 4) 0 = none ∧
    getAdj (punctureRaw t tet) (t.n + 5) 0 = none := by
  have hf2 : ∀ k : Nat, ¬(t.n + k = tet) := fun k => by omega
  rcases hA : getAdj t tet 0 with _ | ⟨a, g⟩
  · constructor <;>
      simp [punctureRaw, hA, getAdj_joinRaw, getAdj_addBlanks, n_joinRaw, n_addBlanks, hf2]
  · obtain ⟨ha, -⟩ := hadj (a, g) hA
    have ga2 : ∀ k : Nat, ¬(t.n + k = a) := fun k => by omega
    constructor <;>
      simp [punctureRaw, hA, clearPair, getAdj_joinRaw, getAdj_setAdj, getAdj_addBlanks,
        n_joinRaw, n_setAdj, n_addBlanks, hf2, ga2]

theorem punctureRaw_tet0 (t : Tri) (tet : Nat) (htet : tet < t.n)
    (hadj : ∀ x : Nat × P4, getAdj t tet 0 = some x →
      x.1 < t.n ∧ ¬(x.1 = tet ∧ x.2 0 = 0)) :
    getAdj (punctureRaw t tet) tet 0 = some (t.n, p3012) := by
  have hf3 : ¬(tet = t.n) := by omega
  have hf6 : tet < t.n + 6 := by omega
  rcases hA : getAdj t tet 0 with _ | ⟨a, g⟩
  · simp [punctureRaw, hA, getAdj_joinRaw, getAdj_addBlanks, n_joinRaw, n_addBlanks,
      hf3, hf6]
  · obtain ⟨ha, hane⟩ := hadj (a, g) hA
    have hb2 : ¬(tet = a ∧ (0 : Fin 4) = g 0) := fun hc => hane ⟨hc.1.symm, hc.2.symm⟩
    have hf1 : ∀ k : Nat, ¬(tet = t.n + k) := fun k => by omega
    simp [punctureRaw, hA, clearPair, getAdj_joinRaw, getAdj_setAdj, getAdj_addBlanks,
      n_joinRaw, n_setAdj, n_addBlanks, hf1, hf3, hf6, hb2]

theorem punctureRaw_partner (t : Tri) (tet a : Nat) (g : P4) (htet : tet < t.n)
    (ha : a < t.n) (hane : ¬(a = tet ∧ g 0 = 0))
    (hA : getAdj t tet 0 = some (a, g)) :
    getAdj (punctureRaw t tet) a (g 0) = some (t.n + 1, g⁻¹) := by
  have ga1 : ∀ k : Nat, ¬(a = t.n + k) := fun k => by omega
  have ga3 : ¬(a = t.n) := by omega
  have ga6 : a < t.n + 6 := by omega
  simp [punctureRaw, hA, clearPair, getAdj_joinRaw, getAdj_setAdj, getAdj_addBlanks,
    n_joinRaw, n_setAdj, n_addBlanks, ga1, ga3, ga6, hane]

theorem punctureRaw_slot10 (t : Tri) (tet : Nat) (htet : tet < t.n)
    (hadj : ∀ x : Nat × P4, getAdj t tet 0 = some x →
      x.1 < t.n ∧ ¬(x.1 = tet ∧ x.2 0 = 0)) :
    getAdj (punctureRaw t tet) (t.n + 1) 0 = getAdj t tet 0 := by
  have hf2 : ∀ k : Nat, ¬(t.n + k = tet) := fun k => by omega
  rcases hA : getAdj t tet 0 with _ | ⟨a, g⟩
  · simp [punctureRaw, hA, getAdj_joinRaw, getAdj_addBlanks, n_joinRaw, n_addBlanks, hf2]
  · obtain ⟨ha, -⟩ := hadj (a, g) hA
    have ga2 : ∀ k : Nat, ¬(t.n + k = a) := fun k => by omega
    simp [punctureRaw, hA, clearPair, getAdj_joinRaw, getAdj_setAdj, getAdj_addBlanks,
      n_joinRaw, n_setAdj, n_addBlanks, hf2, ga2]

set_option maxHeartbeats 3000000 in
theorem punctureRaw_new_isSome (t : Tri) (tet : Nat) (htet : tet < t.n)
    (hadj : ∀ x : Nat × P4, getAdj t tet 0 = some x →
      x.1 < t.n ∧ ¬(x.1 = tet ∧ x.2 0 = 0)) :
    ∀ j : Fin 6, ∀ f : Fin 4, ¬((j.val = 4 ∨ j.val = 5) ∧ f = 0) →
      ¬(j.val = 1 ∧ f = 0) →
      (getAdj (punctureRaw t tet) (t.n + j.val) f).isSome = true := by
  intro j f hjf hj1
  have hf2 : ∀ k : Nat, ¬(t.n + k = tet) := fun k => by omega
  have hf4 : ¬(t.n = tet) := by omega
  rcases hA : getAdj t tet 0 with _ | ⟨a, g⟩
  · fin_cases j <;> fin_cases f <;>
      first
        | exact absurd ⟨by decide, by decide⟩ hjf
        | exact absurd ⟨by decide, by decide⟩ hj1
        | simp [punctureRaw, hA, getAdj_joinRaw, getAdj_addBlanks, n_joinRaw, n_addBlanks,
            lt_add_iff_pos_right, hf2, hf4]
  · obtain ⟨ha, -⟩ := hadj (a, g) hA
    have ga2 : ∀ k : Nat, ¬(t.n + k = a) := fun k => by omega
    have ga4 : ¬(t.n = a) := by omega
    have ga6 : a < t.n + 6 := by omega
    fin_cases j <;> fin_cases f <;>
      first
        | exact absurd ⟨by decide, by decide⟩ hjf
        | exact absurd ⟨by decide, by decide⟩ hj1
        | simp [punctureRaw, hA, clearPair, getAdj_joinRaw, getAdj_setAdj, getAdj_addBlanks,
            n_joinRaw, n_setAdj, n_addBlanks, lt_add_iff_pos_right, hf2, hf4, ga2, ga4, ga6]

theorem wf_hadj (t : Tri) (tet : Nat) (hw : wf t = true) (htet : tet < t.n) :
    ∀ x : Nat × P4, getAdj t tet 0 = some x →
      x.1 < t.n ∧ ¬(x.1 = tet ∧ x.2 0 = 0) := by
  rintro ⟨b, p⟩ hx
  obtain ⟨h1, -, h3⟩ := wf_slot t tet 0 b p hw htet hx
  exact ⟨h1, h3⟩

/-! Claim C5. -/

/-- Claim C5: on a well-formed non-empty triangulation, puncturing at any
tetrahedron succeeds, increases the size by exactly 6, and the only
pre-existing facet slots that change are facet 0 of the punctured
tetrahedron (re-glued to the first prism tetrahedron) and the reciprocal
facet of its former neighbour across facet 0, if any (re-glued to the second
prism tetrahedron); every other pre-existing slot keeps its original value,
so in particular facets 1, 2, 3 of the punctured tetrahedron and all other
simplices' gluings are unchanged. -/
theorem C5_puncture_frame (t : Tri) (tet : Nat) (hw : wf t = true) (htet : tet < t.n) :
    ∃ u, puncture t (some tet) = some u ∧
      u.n = t.n + 6 ∧
      (∀ i f, i < t.n → ¬(i = tet ∧ f = 0) →
        (∀ x : Nat × P4, getAdj t tet 0 = some x → ¬(i = x.1 ∧ f = x.2 0)) →
        getAdj u i f = getAdj t i f) ∧
      getAdj u tet 0 = some (t.n, p3012) ∧
      (∀ x : Nat × P4, getAdj t tet 0 = some x →
        getAdj u x.1 (x.2 0) = some (t.n + 1, x.2⁻¹)) := by
  have hadj := wf_hadj t tet hw htet
  refine ⟨punctureRaw t tet, punctureAt_eq t tet htet hadj, n_punctureRaw t tet,
    fun i f hi h1 h2 => punctureRaw_frame t tet i f hi h1 h2,
    punctureRaw_tet0 t tet htet hadj, ?_⟩
  rintro ⟨a, g⟩ hx
  obtain ⟨ha, hane⟩ := hadj (a, g) hx
  exact punctureRaw_partner t tet a g htet ha hane hx

/-- Witness for C5: puncturing the single tetrahedron of a one-tetrahedron
triangulation. -/
theorem C5_witness :
    wf oneBlank = true ∧ 0 < oneBlank.n ∧
    (∃ u, puncture oneBlank (some 0) = some u ∧
      u.n = oneBlank.n + 6 ∧
      (∀ i f, i < oneBlank.n → ¬(i = 0 ∧ f = 0) →
        (∀ x : Nat × P4, getAdj oneBlank 0 0 = some x → ¬(i = x.1 ∧ f = x.2 0)) →
        getAdj u i f = getAdj oneBlank i f) ∧
      getAdj u 0 0 = some (oneBlank.n, p3012) ∧
      (∀ x : Nat × P4, getAdj oneBlank 0 0 = some x →
        getAdj u x.1 (x.2 0) = some (oneBlank.n + 1, x.2⁻¹))) :=
  ⟨by decide, by decide, C5_puncture_frame oneBlank 0 (by decide) (by decide)⟩

/-! Claim C10. -/

/-- Claim C10: after puncturing a tetrahedron of a well-formed non-empty
triangulation, the two triangles forming the newly created sphere boundary
are facet 0 of the simplices at indices `size()-2` and `size()-1` — the last
two of the six created tetrahedra in creation order — and they are the only
unglued facets among the six new tetrahedra except that facet 0 of the
second prism tetrahedron (index `size()-5`) inherits the punctured facet's
original slot, so it is boundary exactly when that facet was; with the
argument omitted the punctured simplex is the one at index 0.
`connectedSumWith` records the two puncture boundary facets as
`simplices_[size()-2]` and `simplices_[size()-1]`, which this placement
justifies. -/
theorem C10_puncture_placement (t : Tri) (tet : Nat) (hw : wf t = true)
    (htet : tet < t.n) :
    ∃ u, puncture t (some tet) = some u ∧
      u.n - 2 = t.n + 4 ∧ u.n - 1 = t.n + 5 ∧
      getAdj u (u.n - 2) 0 = none ∧ getAdj u (u.n - 1) 0 = none ∧
      (∀ j : Fin 6, ∀ f : Fin 4, ¬((j.val = 4 ∨ j.val = 5) ∧ f = 0) →
        ¬(j.val = 1 ∧ f = 0) →
        (getAdj u (t.n + j.val) f).isSome = true) ∧
      getAdj u (t.n + 1) 0 = getAdj t tet 0 ∧
      (t.n ≠ 0 → puncture t none = puncture t (some 0)) := by
  have hadj := wf_hadj t tet hw htet
  obtain ⟨hb4, hb5⟩ := punctureRaw_bdry t tet htet hadj
  have hn := n_punctureRaw t tet
  refine ⟨punctureRaw t tet, punctureAt_eq t tet htet hadj, by omega, by omega,
    ?_, ?_, punctureRaw_new_isSome t tet htet hadj,
    punctureRaw_slot10 t tet htet hadj, ?_⟩
  · rw [show (punctureRaw t tet).n - 2 = t.n + 4 by omega]
    exact hb4
  · rw [show (punctureRaw t tet).n - 1 = t.n + 5 by omega]
    exact hb5
  · intro hne
    simp [puncture, hne]

/-- Witness for C10, on a one-tetrahedron triangulation. -/
theorem C10_witness :
    wf oneBlank = true ∧ 0 < oneBlank.n ∧
    (∃ u, puncture oneBlank (some 0) = some u ∧
      u.n - 2 = oneBlank.n + 4 ∧ u.n - 1 = oneBlank.n + 5 ∧
      getAdj u (u.n - 2) 0 = none ∧ getAdj u (u.n - 1) 0 = none ∧
      (∀ j : Fin 6, ∀ f : Fin 4, ¬((j.val = 4 ∨ j.val = 5) ∧ f = 0) →
        ¬(j.val = 1 ∧ f = 0) →
        (getAdj u (oneBlank.n + j.val) f).isSome = true) ∧
      getAdj u (oneBlank.n + 1) 0 = getAdj oneBlank 0 0 ∧
      (oneBlank.n ≠ 0 → puncture oneBlank none = puncture oneBlank (some 0))) :=
  ⟨by decide, by decide, C10_puncture_placement oneBlank 0 (by decide) (by decide)⟩

/-! Claim C6. -/

theorem n_insert (t x : Tri) : (insertTriangulation t x).n = t.n + x.n := rfl

theorem getAdj_insert_left (t x : Tri) (i : Nat) (f : Fin 4) (h : i < t.n) :
    getAdj (insertTriangulation t x) i f = getAdj t i f := by
  simp only [getAdj, insertTriangulation]
  rw [if_pos (show i < t.n + x.n by omega), if_pos h, if_pos h]

theorem getAdj_insert_right (t x : Tri) (j : Nat) (f : Fin 4)
    (h1 : t.n ≤ j) (h2 : j < t.n + x.n) :
    getAdj (insertTriangulation t x) j f =
      match getAdj x (j - t.n) f with
      | some (b, p) => some (t.n + b, p)
      | none => none := by
  simp only [getAdj, insertTriangulation]
  rw [if_pos h2, if_neg (by omega)]

theorem exists_of_map_n (o : Option Tri) (m : Nat)
    (h : Option.map Tri.n o = some m) : ∃ C, o = some C ∧ C.n = m := by
  cases o with
  | none => cases h
  | some c =>
      refine ⟨c, rfl, ?_⟩
      simpa using h

set_option maxHeartbeats 2000000 in
theorem connectedSum_size (A B : Tri) (hA : wf A = true) (hB : wf B = true)
    (hA0 : A.n ≠ 0) (hB0 : B.n ≠ 0) :
    Option.map Tri.n (connectedSumWith A B) = some (A.n + B.n + 6) := by
  have hadjA := wf_hadj A 0 hA (by omega)
  have ht1n : (insertTriangulation A B).n = A.n + B.n := rfl
  have h00 : getAdj (insertTriangulation A B) 0 0 = getAdj A 0 0 :=
    getAdj_insert_left A B 0 0 (by omega)
  have hadj1 : ∀ x : Nat × P4, getAdj (insertTriangulation A B) 0 0 = some x →
      x.1 < (insertTriangulation A B).n ∧ ¬(x.1 = 0 ∧ x.2 0 = 0) := by
    intro x hx
    rw [h00] at hx
    obtain ⟨hlt, hne⟩ := hadjA x hx
    exact ⟨by rw [ht1n]; omega, hne⟩
  have h0t1 : 0 < (insertTriangulation A B).n := by rw [ht1n]; omega
  have hPE := punctureAt_eq (insertTriangulation A B) 0 h0t1 hadj1
  have hAnlt : A.n < (insertTriangulation A B).n := by rw [ht1n]; omega
  have hframe : getAdj (punctureRaw (insertTriangulation A B) 0) A.n 0 =
      getAdj (insertTriangulation A B) A.n 0 := by
    refine punctureRaw_frame _ 0 A.n 0 hAnlt (fun hc => hA0 hc.1) ?_
    intro x hx
    rw [h00] at hx
    obtain ⟨hlt, -⟩ := hadjA x hx
    exact fun hc => by omega
  have hBslot : getAdj (insertTriangulation A B) A.n 0 =
      match getAdj B 0 0 with
      | some (b, p) => some (A.n + b, p)
      | none => none := by
    have hr := getAdj_insert_right A B A.n 0 (le_refl _) (show A.n < A.n + B.n by omega)
    rw [hr, Nat.sub_self]
  obtain ⟨hb4, hb5⟩ := punctureRaw_bdry (insertTriangulation A B) 0 h0t1 hadj1
  rw [ht1n] at hb4 hb5
  have hscr := hframe.trans hBslot
  have hps : ¬(permSign p1230 = 1) := by decide
  simp only [connectedSumWith]
  rw [if_neg hB0, if_neg hA0, hPE, Option.some_bind]
  rcases hB00 : getAdj B 0 0 with _ | ⟨b, g⟩
  · rw [hB00] at hscr
    have f3 : ¬(A.n + B.n + 4 = A.n) := by omega
    have f6 : A.n < A.n + B.n + 6 := by omega
    rw [hscr]
    simp [join_eq_some, getAdj_joinRaw, getAdj_setAdj, n_joinRaw, n_setAdj,
      n_punctureRaw, n_insert, hscr, hb4, hps, f3, f6, Equiv.Perm.mul_apply]
  · rw [hB00] at hscr
    obtain ⟨hbB, -, hbne⟩ := wf_slot B 0 0 b g hB (by omega) hB00
    have f1 : ¬(A.n + B.n + 4 = A.n + b) := by omega
    have f2 : ¬(A.n + B.n + 5 = A.n + b) := by omega
    have f3 : ¬(A.n + B.n + 4 = A.n) := by omega
    have f4 : ¬(A.n + B.n + 5 = A.n) := by omega
    have f6 : A.n < A.n + B.n + 6 := by omega
    have f7 : ¬(A.n + b = A.n + B.n + 4) := by omega
    have f8 : A.n + b < A.n + B.n + 6 := by omega
    have fc1 : ¬(A.n = A.n + b ∧ (0 : Fin 4) = g 0) := by
      rintro ⟨hc1, hc2⟩
      exact hbne ⟨by omega, hc2.symm⟩
    have fc2 : ¬(A.n + b = A.n ∧ g 0 = 0) := by
      rintro ⟨hc1, hc2⟩
      exact hbne ⟨by omega, hc2⟩
    rw [hscr]
    simp [join_eq_some, unjoin, getAdj_joinRaw, getAdj_setAdj, n_joinRaw, n_setAdj,
      n_punctureRaw, n_insert, hscr, hb4, hb5, hps, f1, f2, f3, f4, f6, f7, f8,
      fc1, fc2, Equiv.Perm.mul_apply]
    refine ⟨_, join_eq_some _ _ _ _ _ ?_ ?_ ?_ ?_ ?_, ?_⟩
    · simp [n_joinRaw, n_setAdj, n_punctureRaw, n_insert]
    · simp only [n_joinRaw, n_setAdj, n_punctureRaw, n_insert]
      omega
    · simp [getAdj_joinRaw, getAdj_setAdj, n_joinRaw, n_setAdj, n_punctureRaw, n_insert,
        hb4, hb5, f1, f2, f3, f4, f6, f7, f8, fc1, fc2, Equiv.Perm.mul_apply]
    · simp [getAdj_joinRaw, getAdj_setAdj, n_joinRaw, n_setAdj, n_punctureRaw, n_insert,
        hb4, hb5, f1, f2, f3, f4, f6, f7, f8, fc1, fc2, Equiv.Perm.mul_apply]
      exact fun h1 h2 => hbne ⟨h1, h2⟩
    · simp [f2]
    · simp [n_joinRaw, n_setAdj, n_punctureRaw, n_insert]

/-- Claim C6: for non-empty well-formed triangulations `A` and `B`,
`A.connectedSumWith(B)` succeeds and the new size of `A` is
`size(A) + size(B) + 6`; this also holds for `A.connectedSumWith(A)`,
where the inserted copy is read from the original value of `A` so that
summing a triangulation with itself works; if `B` is empty the call is a
no-op, and if `A` is empty it degenerates to a plain insertion of `B`'s
simplices. -/
theorem C6_connectedSum (A B : Tri) :
    (B.n = 0 → connectedSumWith A B = some A) ∧
    (A.n = 0 → B.n ≠ 0 → connectedSumWith A B = some (insertTriangulation A B)) ∧
    (wf A = true → wf B = true → A.n ≠ 0 → B.n ≠ 0 →
      ∃ C, connectedSumWith A B = some C ∧ C.n = A.n + B.n + 6) ∧
    (wf A = true → A.n ≠ 0 →
      ∃ C, connectedSumWith A A = some C ∧ C.n = A.n + A.n + 6) := by
  refine ⟨?_, ?_, ?_, ?_⟩
  · intro h
    simp [connectedSumWith, h]
  · intro h1 h2
    simp [connectedSumWith, h1, h2]
  · intro hwA hwB h1 h2
    exact exists_of_map_n _ _ (connectedSum_size A B hwA hwB h1 h2)
  · intro hwA h1
    exact exists_of_map_n _ _ (connectedSum_size A A hwA hwA h1 h1)

/-- Witness for C6: the connected sum of a one-tetrahedron triangulation
with itself. -/
theorem C6_witness :
    wf oneBlank = true ∧ oneBlank.n ≠ 0 ∧
    (∃ C, connectedSumWith oneBlank oneBlank = some C ∧
      C.n = oneBlank.n + oneBlank.n + 6) :=
  ⟨by decide, by decide,
    (C6_connectedSum oneBlank oneBlank).2.2.2 (by decide) (by decide)⟩

/-! Claim C8. -/

theorem n_foldl_of {α : Type} (g : Tri → α → Tri) (l : List α) (t : Tri)
    (h : ∀ u x, (g u x).n = u.n) : (l.foldl g t).n = t.n := by
  induction l generalizing t with
  | nil => rfl
  | cons x l ih => rw [List.foldl_cons, ih, h]

theorem n_internalGlueTet (S : SubdivIdx) (i : Nat) (t : Tri) :
    (internalGlueTet S i t).n = t.n := by
  simp only [internalGlueTet]
  refine (n_foldl_of _ _ _ ?_).trans ((n_foldl_of _ _ _ ?_).trans (n_foldl_of _ _ _ ?_))
  · intro u j
    refine n_foldl_of _ _ _ ?_
    intro v k
    dsimp only
    split
    · refine (n_foldl_of _ _ _ ?_).trans ?_
      · intro w l
        split <;> rfl
      · split <;> rfl
    · rfl
  · intro u j
    refine n_foldl_of _ _ _ ?_
    intro v k
    dsimp only
    split <;> rfl
  · intro u j
    rfl

theorem n_crossGlueTet (S : SubdivIdx) (orig : Tri) (i : Nat) (t : Tri) :
    (crossGlueTet S orig i t).n = t.n := by
  simp only [crossGlueTet]
  refine n_foldl_of _ _ _ ?_
  intro u j
  dsimp only
  rcases getAdj orig i j with _ | ⟨oppTet, p⟩
  · rfl
  · dsimp only
    split
    · rfl
    · refine (n_foldl_of _ _ _ ?_).trans ((n_foldl_of _ _ _ ?_).trans (n_foldl_of _ _ _ ?_)) <;>
        { intro v k; dsimp only; split <;> rfl }

theorem n_buildStaging (t : Tri) : (buildStaging t).n = 32 * t.n := by
  simp only [buildStaging]
  refine (n_foldl_of _ _ _ ?_).trans ((n_foldl_of _ _ _ ?_).trans ?_)
  · intro u i
    exact n_crossGlueTet _ _ _ _
  · intro u i
    exact n_internalGlueTet _ _ _
  · rw [n_addBlanks]
    show 0 + 32 * t.n = 32 * t.n
    omega

/-- Claim C8: the staging triangulation built by `idealToFinite` contains,
before any ideal-vertex deletion, exactly `32 * n` tetrahedra for `n`
original tetrahedra, and the `nDiv` index scheme partitions the 32 children
of each original tetrahedron into 4 tip pieces, 4 interior pieces, 12 edge
pieces and 12 vertex pieces, keyed by the original tetrahedron's vertex
labels. -/
theorem C8_staging_partition (t : Tri) :
    (buildStaging t).n = 32 * t.n ∧
    subdivIdx.nDiv = 32 ∧
    (Finset.image subdivIdx.tip Finset.univ ∪
      Finset.image subdivIdx.interior Finset.univ ∪
      Finset.image (fun x : Fin 4 × Fin 4 => subdivIdx.edge x.1 x.2)
        (Finset.univ.filter fun x : Fin 4 × Fin 4 => x.1 ≠ x.2) ∪
      Finset.image (fun x : Fin 4 × Fin 4 => subdivIdx.vertex x.1 x.2)
        (Finset.univ.filter fun x : Fin 4 × Fin 4 => x.1 ≠ x.2)) =
      Finset.range 32 ∧
    (Finset.image subdivIdx.tip Finset.univ).card = 4 ∧
    (Finset.image subdivIdx.interior Finset.univ).card = 4 ∧
    (Finset.image (fun x : Fin 4 × Fin 4 => subdivIdx.edge x.1 x.2)
      (Finset.univ.filter fun x : Fin 4 × Fin 4 => x.1 ≠ x.2)).card = 12 ∧
    (Finset.image (fun x : Fin 4 × Fin 4 => subdivIdx.vertex x.1 x.2)
      (Finset.univ.filter fun x : Fin 4 × Fin 4 => x.1 ≠ x.2)).card = 12 :=
  ⟨n_buildStaging t, by decide, by decide, by decide, by decide, by decide, by decide⟩

/-! Claim C2. -/

theorem getD_map_range_add (L base i : Nat) (h : i < L) :
    ((List.range L).map (fun k => base + k)).getD i 0 = base + i := by
  simp [List.getD_eq_getElem?_getD, List.getElem?_map, List.getElem?_range h]

theorem nodup_map_range_add (L base : Nat) :
    ((List.range L).map (fun k => base + k)).Nodup :=
  (List.nodup_range L).map (fun a b hab => by omega)

theorem indexOf_map_range_add (L base i : Nat) (h : i < L) :
    ((List.range L).map (fun k => base + k)).indexOf (base + i) = i := by
  have hlen : i < ((List.range L).map (fun k => base + k)).length := by simpa using h
  have hget : ((List.range L).map (fun k => base + k))[i] = base + i := by
    simp [List.getElem_map, List.getElem_range]
  have hidx := List.get_indexOf (nodup_map_range_add L base) ⟨i, hlen⟩
  simpa [List.get_eq_getElem, hget] using hidx

theorem getD_indexOf (l : List Nat) (a : Nat) (h : a ∈ l) :
    l.getD (l.indexOf a) 0 = a := by
  rw [List.getD_eq_getElem l 0 (List.indexOf_lt_length.mpr h)]
  have hg := List.indexOf_get (List.indexOf_lt_length.mpr h)
  simpa [List.get_eq_getElem] using hg

/-- Claim C2: copy-constructing a new triangulation `dst` from `src` yields
`src.isIdenticalTo(dst) == true`: the copy has the same number of simplices
and, at every simplex index and facet, the same boundary status, adjacent
simplex index and gluing permutation, with every gluing reference in the
copy resolved to the copy's own (freshly allocated) simplices. -/
theorem C2_copy_isIdentical (w : Mem.World) (src dst : Nat)
    (hmem : ∀ a ∈ w.tris src, a < w.heap.length)
    (hadj : ∀ a ∈ w.tris src, ∀ f : Fin 4, ∀ x : Nat × P4,
      (Mem.obj w a).adj f = some x → x.1 ∈ w.tris src)
    (hdst : dst ≠ src) :
    Mem.isIdenticalToW (Mem.copyTri w src dst) src dst = true := by
  have hsd : src ≠ dst := fun hc => hdst hc.symm
  have hL : (Mem.copyTri w src dst).tris src = w.tris src := by
    simp [Mem.copyTri, hsd]
  have hR : (Mem.copyTri w src dst).tris dst =
      (List.range (w.tris src).length).map (fun k => w.heap.length + k) := by
    simp [Mem.copyTri]
  unfold Mem.isIdenticalToW
  rw [hL, hR]
  simp only [List.length_map, List.length_range, Bool.and_eq_true, decide_eq_true_eq,
    List.all_eq_true, List.mem_range]
  refine ⟨trivial, ?_⟩
  intro i hi f _
  have hmemi : (w.tris src).getD i 0 ∈ w.tris src := by
    rw [List.getD_eq_getElem _ _ hi]
    exact List.getElem_mem hi
  have hme : Mem.obj (Mem.copyTri w src dst) ((w.tris src).getD i 0) =
      Mem.obj w ((w.tris src).getD i 0) := by
    simp only [Mem.copyTri, Mem.obj]
    exact List.getD_append _ _ _ _ (hmem _ hmemi)
  have hBi : ((List.range (w.tris src).length).map
      (fun k => w.heap.length + k)).getD i 0 = w.heap.length + i :=
    getD_map_range_add _ _ _ hi
  have hyou : Mem.obj (Mem.copyTri w src dst) (w.heap.length + i) =
      { descr := (Mem.obj w ((w.tris src).getD i 0)).descr
      , adj := fun f =>
          match (Mem.obj w ((w.tris src).getD i 0)).adj f with
          | some (a2, p) => some (w.heap.length + (w.tris src).indexOf a2, p)
          | none => none
      , tri := dst } := by
    simp only [Mem.copyTri, Mem.obj]
    rw [List.getD_append_right _ _ _ _ (Nat.le_add_right _ _), Nat.add_sub_cancel_left]
    rw [List.getD_eq_getElem _ _ (by simpa using hi)]
    simp [List.getElem_map, List.getElem_range]
  rw [hBi, hyou, hme]
  rcases hAf : (Mem.obj w ((w.tris src).getD i 0)).adj f with _ | ⟨a2, p⟩
  · simp only [hAf]
  · have hmem2 : a2 ∈ w.tris src := hadj _ hmemi f (a2, p) hAf
    have hidx : (w.tris src).indexOf a2 < (w.tris src).length :=
      List.indexOf_lt_length.mpr hmem2
    simp only [hAf]
    rw [indexOf_map_range_add _ _ _ hidx, getD_indexOf _ _ hmem2]
    simp

/-- Witness for C2: copying a two-tetrahedron triangulation with one
gluing. -/
theorem C2_witness :
    Mem.isIdenticalToW (Mem.copyTri Mem.wPair 0 1) 0 1 = true := by
  refine C2_copy_isIdentical Mem.wPair 0 1 (by decide) ?_ (by decide)
  intro a ha f x hx
  fin_cases ha <;> fin_cases f <;> simp_all [Mem.obj, Mem.wPair] <;> simp [← hx]

/-! Claim C7. -/

theorem setOwnerAll_cons (h : List Mem.SObj) (b : Nat) (l : List Nat) (t : Nat) :
    Mem.setOwnerAll h (b :: l) t =
      Mem.setOwnerAll (h.set b { h.getD b default with tri := t }) l t := rfl

theorem setOwnerAll_length (addrs : List Nat) (h : List Mem.SObj) (t : Nat) :
    (Mem.setOwnerAll h addrs t).length = h.length := by
  induction addrs generalizing h with
  | nil => rfl
  | cons b l ih =>
      rw [setOwnerAll_cons, ih]
      simp

theorem setOwnerAll_preserves (addrs : List Nat) (h : List Mem.SObj) (t : Nat) (a : Nat) :
    ((Mem.setOwnerAll h addrs t).getD a default).adj = (h.getD a default).adj ∧
    ((Mem.setOwnerAll h addrs t).getD a default).descr = (h.getD a default).descr := by
  induction addrs generalizing h with
  | nil => exact ⟨rfl, rfl⟩
  | cons b l ih =>
      rw [setOwnerAll_cons]
      refine ⟨(ih _).1.trans ?_, (ih _).2.trans ?_⟩ <;>
      · by_cases hab : a = b
        · subst hab
          by_cases hlen : a < h.length
          · simp [List.getD_eq_getElem?_getD, List.getElem?_set_self, hlen]
          · rw [List.set_eq_of_length_le (by omega)]
        · simp [List.getD_eq_getElem?_getD, List.getElem?_set_ne (Ne.symm hab)]

theorem setOwnerAll_tri_notmem (addrs : List Nat) (h : List Mem.SObj) (t : Nat) (a : Nat)
    (ha : a ∉ addrs) :
    ((Mem.setOwnerAll h addrs t).getD a default).tri = (h.getD a default).tri := by
  induction addrs generalizing h with
  | nil => rfl
  | cons b l ih =>
      rw [setOwnerAll_cons, ih _ (fun hc => ha (List.mem_cons_of_mem _ hc))]
      have hab : a ≠ b := fun hc => ha (hc ▸ List.mem_cons_self _ _)
      simp [List.getD_eq_getElem?_getD, List.getElem?_set_ne (Ne.symm hab)]

theorem setOwnerAll_tri_mem (addrs : List Nat) (h : List Mem.SObj) (t : Nat) (a : Nat)
    (ha : a ∈ addrs) (hlen : a < h.length) :
    ((Mem.setOwnerAll h addrs t).getD a default).tri = t := by
  induction addrs generalizing h with
  | nil => cases ha
  | cons b l ih =>
      rw [setOwnerAll_cons]
      by_cases hal : a ∈ l
      · exact ih _ hal (by simpa using hlen)
      · have hab : a = b := by
          rcases List.mem_cons.mp ha with hc | hc
          · exact hc
          · exact absurd hc hal
        subst hab
        rw [setOwnerAll_tri_notmem l _ t a hal]
        simp [List.getD_eq_getElem?_getD, List.getElem?_set_self, hlen]

/-- Claim C7: after `T.swapContents(U)` every simplex reference obtained
before the swap still refers to a simplex with exactly the same facet
gluing slots and the same description as before; only the owning
back-reference `tri_` changes, so each simplex is now reachable through the
other container, and the two containers exchange their complete simplex
sequences. -/
theorem C7_swap_preserves (w : Mem.World) (x y : Nat) (a : Nat)
    (hxy : x ≠ y)
    (hdisj : ∀ b ∈ w.tris x, b ∉ w.tris y)
    (hax : ∀ b ∈ w.tris x, b < w.heap.length)
    (hay : ∀ b ∈ w.tris y, b < w.heap.length) :
    ((Mem.obj (Mem.swapContents w x y) a).adj = (Mem.obj w a).adj ∧
     (Mem.obj (Mem.swapContents w x y) a).descr = (Mem.obj w a).descr) ∧
    (a ∈ w.tris x → (Mem.obj (Mem.swapContents w x y) a).tri = y) ∧
    (a ∈ w.tris y → (Mem.obj (Mem.swapContents w x y) a).tri = x) ∧
    (Mem.swapContents w x y).tris x = w.tris y ∧
    (Mem.swapContents w x y).tris y = w.tris x := by
  refine ⟨?_, ?_, ?_, ?_, ?_⟩
  · constructor
    · exact (setOwnerAll_preserves _ _ _ _).1.trans (setOwnerAll_preserves _ _ _ _).1
    · exact (setOwnerAll_preserves _ _ _ _).2.trans (setOwnerAll_preserves _ _ _ _).2
  · intro hx
    exact setOwnerAll_tri_mem _ _ _ _ hx
      (by rw [setOwnerAll_length]; exact hax _ hx)
  · intro hy
    have hnx : a ∉ w.tris x := fun hc => hdisj _ hc hy
    show ((Mem.setOwnerAll (Mem.setOwnerAll w.heap (w.tris y) x) (w.tris x) y).getD a
      default).tri = x
    rw [setOwnerAll_tri_notmem _ _ _ _ hnx]
    exact setOwnerAll_tri_mem _ _ _ _ hy (hay _ hy)
  · show (if x = x then w.tris y else _) = w.tris y
    rw [if_pos rfl]
  · show (if y = x then _ else if y = y then w.tris x else _) = w.tris x
    rw [if_neg (fun hc => hxy hc.symm), if_pos rfl]

/-- Witness for C7: swapping two one-tetrahedron triangulations. -/
theorem C7_witness :
    ((Mem.obj (Mem.swapContents Mem.wTwoTris 0 1) 0).adj = (Mem.obj Mem.wTwoTris 0).adj ∧
     (Mem.obj (Mem.swapContents Mem.wTwoTris 0 1) 0).descr =
       (Mem.obj Mem.wTwoTris 0).descr) ∧
    (0 ∈ Mem.wTwoTris.tris 0 → (Mem.obj (Mem.swapContents Mem.wTwoTris 0 1) 0).tri = 1) ∧
    (0 ∈ Mem.wTwoTris.tris 1 → (Mem.obj (Mem.swapContents Mem.wTwoTris 0 1) 0).tri = 0) ∧
    (Mem.swapContents Mem.wTwoTris 0 1).tris 0 = Mem.wTwoTris.tris 1 ∧
    (Mem.swapContents Mem.wTwoTris 0 1).tris 1 = Mem.wTwoTris.tris 0 :=
  C7_swap_preserves Mem.wTwoTris 0 1 0 (by decide) (by decide) (by decide) (by decide)

/-! Claim C9. -/

/-- Claim C9: `isIdenticalTo` returns `true` iff the two triangulations have
equal simplex counts and, at every simplex index and facet, either both
facets are boundary or both are glued to the same adjacent index with the
same gluing permutation — that is, iff all facet slots agree — and the
textual simplex descriptions play no role in the result. -/
theorem C9_isIdenticalTo_iff (t u : Tri) :
    (isIdenticalTo t u = true ↔
      t.n = u.n ∧ ∀ i < t.n, ∀ f : Fin 4, getAdj t i f = getAdj u i f) ∧
    (∀ d1 d2 : Nat → String,
      isIdenticalTo { t with descFun := d1 } { u with descFun := d2 } =
        isIdenticalTo t u) := by
  constructor
  · unfold isIdenticalTo
    simp only [Bool.and_eq_true, decide_eq_true_eq, List.all_eq_true, List.mem_range]
    constructor
    · rintro ⟨hn, hall⟩
      refine ⟨hn, fun i hi f => ?_⟩
      have hh := hall i hi f (List.mem_finRange f)
      rcases hu : getAdj u i f with _ | ⟨b, q⟩ <;>
        rcases ht : getAdj t i f with _ | ⟨c, r⟩ <;>
          rw [hu, ht] at hh <;> simp_all
    · rintro ⟨hn, hp⟩
      refine ⟨hn, fun i hi f _ => ?_⟩
      rw [hp i hi f]
      rcases hu : getAdj u i f with _ | ⟨b, q⟩ <;> simp
  · intro d1 d2
    rfl

/-- Witness for C9, at a pair of concrete triangulations. -/
theorem C9_witness :
    (isIdenticalTo twoBlank joinWitT = true ↔
      twoBlank.n = joinWitT.n ∧
        ∀ i < twoBlank.n, ∀ f : Fin 4, getAdj twoBlank i f = getAdj joinWitT i f) ∧
    (∀ d1 d2 : Nat → String,
      isIdenticalTo { twoBlank with descFun := d1 } { joinWitT with descFun := d2 } =
        isIdenticalTo twoBlank joinWitT) :=
  C9_isIdenticalTo_iff twoBlank joinWitT

end ReginaModel
